import Mathlib

/-!
Verification of the block-tree synchronization engine of an MCP adapter for
a note-taking application's HTTP automation API (source: `mcp_logseq/logseq.py`).

The embedding models JSON values, the remote RPC surface as a response oracle
(`Remote`), and the engine's stateful methods (`insert_block`, `delete_block`,
`get_children_tree`, `insert_block_tree`, `replace_children`) as explicit
state-passing functions over a state `St` that records the ordered trace of
issued remote calls, per-kind call counters and emitted warning diagnostics.
Fallible steps return `Except Err`. Recursion over caller-supplied block
specifications is realized with an explicit fuel parameter so that every
definition is structurally recursive and kernel-computable; the wrapper
`insert_block_tree` supplies fuel `depthJ b + 1`, which is proved sufficient.
-/

/-- JSON values, as decoded by the HTTP layer (Python `response.json()`).
Python `None` is `Json.null`; objects keep field order (Python dicts). -/
inductive Json where
  | null
  | bool (b : Bool)
  | num (n : Int)
  | str (s : String)
  | arr (elems : List Json)
  | obj (fields : List (String × Json))

-- Structural equality on JSON values (Python `==` on decoded values).
mutual
def jeq : Json → Json → Bool
  | .null, .null => true
  | .bool a, .bool b => a == b
  | .num a, .num b => a == b
  | .str a, .str b => a == b
  | .arr xs, .arr ys => jeqList xs ys
  | .obj fs, .obj gs => jeqFields fs gs
  | _, _ => false
def jeqList : List Json → List Json → Bool
  | [], [] => true
  | x :: xs, y :: ys => jeq x y && jeqList xs ys
  | _, _ => false
def jeqFields : List (String × Json) → List (String × Json) → Bool
  | [], [] => true
  | (k, v) :: fs, (k', v') :: gs => k == k' && jeq v v' && jeqFields fs gs
  | _, _ => false
end

/-- Python truthiness of a decoded JSON value (`if not tree`, `or []`,
`if new_uuid`). -/
def Json.truthy : Json → Bool
  | .null => false
  | .bool b => b
  | .num n => n != 0
  | .str s => s != ""
  | .arr xs => !xs.isEmpty
  | .obj fs => !fs.isEmpty

/-- Key lookup in an object's field list (Python dict lookup; dict keys are
unique, so first match is the match). -/
def lookupF (k : String) : List (String × Json) → Option Json
  | [] => none
  | (k', v) :: fs => if k' = k then some v else lookupF k fs

-- Nesting depth of a JSON value (measure for the fuelled recursion).
mutual
def depthJ : Json → Nat
  | .null => 0
  | .bool _ => 0
  | .num _ => 0
  | .str _ => 0
  | .arr xs => 1 + depthList xs
  | .obj fs => 1 + depthFields fs
def depthList : List Json → Nat
  | [] => 0
  | x :: xs => max (depthJ x) (depthList xs)
def depthFields : List (String × Json) → Nat
  | [] => 0
  | (_, v) :: fs => max (depthJ v) (depthFields fs)
end

/-- Test whether `needle` occurs at the front of `hay` (character lists). -/
def charsLead : List Char → List Char → Bool
  | [], _ => true
  | _ :: _, [] => false
  | a :: as, b :: bs => a == b && charsLead as bs

/-- Test whether `needle` occurs somewhere in `hay` (Python `sub in str`). -/
def charsHave (needle : List Char) : List Char → Bool
  | [] => charsLead needle []
  | b :: bs => charsLead needle (b :: bs) || charsHave needle bs

/-- Errors raised by a remote call itself: network/timeout failure
(`TransportError`, i.e. a `requests` exception) or a non-2xx HTTP response
(`RemoteError`, i.e. `raise_for_status`). -/
inductive RErr where
  | transport (msg : String)
  | remote (msg : String)

/-- Errors the engine can raise: a propagated remote-call error, the
`ValueError` for a block spec missing `content` (`InvalidSpecError`), and the
Python runtime errors reachable on malformed dynamic values (`TypeError`,
`AttributeError`, `KeyError`). -/
inductive Err where
  | rerr (e : RErr)
  | invalidSpec
  | typeError
  | attributeError
  | keyError

/-- Warning-level diagnostics emitted by the engine (`logger.warning`). -/
inductive Warn where
  | noUuid (parent : String)
  | unexpectedPayload (parent : String)

/-- A remote call as issued over the wire: the children-tree fetch (method
selected by `is_page`), `logseq.Editor.insertBlock` with its options bundle,
or `logseq.Editor.removeBlock`. -/
inductive Call where
  | fetch (parent : String) (isPage : Bool)
  | insert (parent : String) (content : Json) (isPageBlock : Bool)
      (before : Bool) (customUUID : Json)
  | delete (uuid : String)

/-- Observable state threaded through one engine invocation: how many delete
and insert calls have been issued, the full ordered trace of issued remote
calls, and the warnings logged. -/
structure St where
  nDel : Nat
  nIns : Nat
  trace : List Call
  warns : List Warn

def St.init : St := ⟨0, 0, [], []⟩

/-- The remote service, as a response oracle: the decoded JSON (or remote
error) produced for the children-tree fetch, and for the n-th delete and n-th
insert call of the invocation. -/
structure Remote where
  fetchResp : Except RErr Json
  deleteResps : Nat → Except RErr Json
  insertResps : Nat → Except RErr Json

/-- Method `LogSeq.insert_block`: issue one `insertBlock` RPC with the options bundle
`{isPageBlock, before, customUUID}` and return the decoded response
(or raise the transport/HTTP error). -/
def insert_block (R : Remote) (parent_block : String) (content : Json)
    (is_page_block : Bool) (before : Bool) (custom_uuid : Json) (s : St) :
    Except RErr Json × St :=
  (R.insertResps s.nIns,
   { s with nIns := s.nIns + 1,
            trace := s.trace ++
              [Call.insert parent_block content is_page_block before custom_uuid] })

/-- Method `LogSeq.delete_block`: issue one `removeBlock` RPC. -/
def delete_block (R : Remote) (block_uuid : String) (s : St) :
    Except RErr Json × St :=
  (R.deleteResps s.nDel,
   { s with nDel := s.nDel + 1,
            trace := s.trace ++ [Call.delete block_uuid] })

/-- Python `x in d` for the needle `"content"` on an arbitrary decoded value:
key membership for a dict, element membership for a list, substring test for
a string, `TypeError` otherwise. -/
def memberCheck (b : Json) (k : String) : Except Err Bool :=
  match b with
  | .obj fs => .ok (lookupF k fs).isSome
  | .arr xs => .ok (xs.any (fun x => jeq x (Json.str k)))
  | .str s => .ok (charsHave k.toList s.toList)
  | _ => .error Err.typeError

/-- Python `b[k]` subscript on an arbitrary decoded value. -/
def getItem (b : Json) (k : String) : Except Err Json :=
  match b with
  | .obj fs =>
    match lookupF k fs with
    | some v => .ok v
    | none => .error Err.keyError
  | _ => .error Err.typeError

/-- Python `b.get(k, d)` on an arbitrary decoded value: dict lookup with
default, `AttributeError` when `b` is not a dict. -/
def dictGet (b : Json) (k : String) (d : Json) : Except Err Json :=
  match b with
  | .obj fs => .ok ((lookupF k fs).getD d)
  | _ => .error Err.attributeError

/-- Python iteration over `v or []` (`for child in block_data.get("children",
[]) or []`): a falsy value iterates as empty, a list yields its elements, a
string its characters, a dict its keys; other truthy values `TypeError`. -/
def iterChildren (v : Json) : Except Err (List Json) :=
  if v.truthy = false then .ok []
  else match v with
    | .arr xs => .ok xs
    | .str s => .ok (s.toList.map (fun c => Json.str (String.singleton c)))
    | .obj fs => .ok (fs.map (fun p => Json.str p.1))
    | _ => .error Err.typeError

/-- Python `reversed(x)` as used on the fetched children value: a list
reversed, a string's characters reversed, a dict's keys reversed,
`TypeError` otherwise. -/
def reversedIter : Json → Except Err (List Json)
  | .arr xs => .ok xs.reverse
  | .str s => .ok ((s.toList.reverse).map (fun c => Json.str (String.singleton c)))
  | .obj fs => .ok ((fs.map (fun p => Json.str p.1)).reverse)
  | _ => .error Err.typeError

/-- The `for key in ("uuid", "id")` loop of `_extract_block_uuid`: first of
the two keys whose value is a string. -/
def tryUuidKeys (fs : List (String × Json)) : Option String :=
  match lookupF "uuid" fs with
  | some (.str s) => some s
  | _ =>
    match lookupF "id" fs with
    | some (.str s) => some s
    | _ => none

/-- Method `LogSeq._extract_block_uuid`: best-effort extraction of a block
identifier from an arbitrary RPC response. -/
def extract_block_uuid : Json → Option String
  | .str s => some s
  | .obj fs =>
    match tryUuidKeys fs with
    | some s => some s
    | none =>
      match lookupF "block" fs with
      | some (.obj bfs) => tryUuidKeys bfs
      | _ => none
  | _ => none

/-- Method `LogSeq._get_children_tree`: issue the children-tree fetch (page method
or block method per `is_page`) and normalize the decoded response: falsy →
`[]`; dict → its `children` field, defaulted and falsy-coerced to `[]`; list
→ as-is; anything else → `[]` with a warning logged. -/
def get_children_tree (R : Remote) (parent : String) (is_page : Bool)
    (s : St) : Except RErr Json × St :=
  let s1 := { s with trace := s.trace ++ [Call.fetch parent is_page] }
  match R.fetchResp with
  | .error e => (.error e, s1)
  | .ok tree =>
    if tree.truthy = false then (.ok (Json.arr []), s1)
    else match tree with
      | .obj fs =>
        let v := (lookupF "children" fs).getD (Json.arr [])
        (.ok (if v.truthy then v else Json.arr []), s1)
      | .arr xs => (.ok (Json.arr xs), s1)
      | _ => (.ok (Json.arr []),
              { s1 with warns := s1.warns ++ [Warn.unexpectedPayload parent] })

/-- Sequential processing of a child list: run `step` on each child in order,
aborting on the first raised error and discarding the per-child results
(the `for child in ...` loop body of `_insert_block_tree`). -/
def seqKids (step : Json → St → Except Err (Option String) × St) :
    List Json → St → Except Err Unit × St
  | [], s => (.ok (), s)
  | c :: cs, s =>
    match step c s with
    | (.error e, s') => (.error e, s')
    | (.ok _, s') => seqKids step cs s'

/-- One step of `LogSeq._insert_block_tree`, parameterized by the function
`rec` used for the recursive child insertions: validate `content` membership,
issue the insert with options `{is_page_block, before := false, custom_uuid}`,
extract the new identifier (soft-failing to `None` with a warning and without
recursing), then run `rec` on each child in order under the new identifier. -/
def ibtBody (R : Remote)
    (rec : String → Json → St → Except Err (Option String) × St)
    (parent : String) (block_data : Json) (is_page_block : Bool) (s : St) :
    Except Err (Option String) × St :=
  match memberCheck block_data "content" with
  | .error e => (.error e, s)
  | .ok false => (.error Err.invalidSpec, s)
  | .ok true =>
    match getItem block_data "content" with
    | .error e => (.error e, s)
    | .ok content =>
      match dictGet block_data "custom_uuid" Json.null with
      | .error e => (.error e, s)
      | .ok cu =>
        match insert_block R parent content is_page_block false cu s with
        | (.error e, s1) => (.error (Err.rerr e), s1)
        | (.ok result, s1) =>
          match extract_block_uuid result with
          | none => (.ok none, { s1 with warns := s1.warns ++ [Warn.noUuid parent] })
          | some new_uuid =>
            match dictGet block_data "children" (Json.arr []) with
            | .error e => (.error e, s1)
            | .ok chv =>
              match iterChildren chv with
              | .error e => (.error e, s1)
              | .ok kids =>
                match seqKids (fun c s' => rec new_uuid c s') kids s1 with
                | (.error e, s2) => (.error e, s2)
                | (.ok _, s2) => (.ok (some new_uuid), s2)

/-- Fuelled form of `LogSeq._insert_block_tree`. The fuel-0 branch is a
modelling artifact, unreachable whenever the fuel exceeds the spec's nesting
depth (`ibt_fuel_irrelevant`); the wrapper `insert_block_tree` always supplies
sufficient fuel. -/
def ibt (R : Remote) : Nat → String → Json → Bool → St →
    Except Err (Option String) × St
  | 0, _, _, _, s => (.error Err.typeError, s)
  | f + 1, parent, block_data, is_page_block, s =>
    ibtBody R (fun u c s' => ibt R f u c false s') parent block_data is_page_block s

/-- Method `LogSeq._insert_block_tree`: validate the spec has `content`, issue the
insert, extract the new identifier (soft-failing to `None` without recursing),
then recursively insert the children in order under the new identifier. -/
def insert_block_tree (R : Remote) (parent : String) (block_data : Json)
    (is_page_block : Bool) (s : St) : Except Err (Option String) × St :=
  ibt R (depthJ block_data + 1) parent block_data is_page_block s

/-- The deletion loop of `replace_children`: for each child descriptor (in
the order given, already reversed by the caller), read `child.get("uuid")`
and issue a delete when it is a string, skipping it otherwise. -/
def delete_loop (R : Remote) : List Json → St → Except Err Unit × St
  | [], s => (.ok (), s)
  | c :: cs, s =>
    match dictGet c "uuid" Json.null with
    | .error e => (.error e, s)
    | .ok u =>
      match u with
      | .str us =>
        match delete_block R us s with
        | (.error e, s1) => (.error (Err.rerr e), s1)
        | (.ok _, s1) => delete_loop R cs s1
      | _ => delete_loop R cs s

/-- The insertion loop of `replace_children`: one `_insert_block_tree` call
per root spec in input order, collecting each truthy returned identifier
(`if new_uuid:` — so `None` and the empty string are both dropped). -/
def insert_loop (R : Remote) (parent : String) : List Json → Bool → St →
    Except Err (List String) × St
  | [], _, s => (.ok [], s)
  | b :: bs, is_page, s =>
    match insert_block_tree R parent b is_page s with
    | (.error e, s1) => (.error e, s1)
    | (.ok new_uuid, s1) =>
      match insert_loop R parent bs is_page s1 with
      | (.error e, s2) => (.error e, s2)
      | (.ok rest, s2) =>
        (.ok (match new_uuid with
              | some u => if u ≠ "" then u :: rest else rest
              | none => rest), s2)

/-- Method `LogSeq.replace_children`: optionally fetch the current children and
delete them in reverse fetch order, then insert the new forest, returning
the collected root identifiers. -/
def replace_children (R : Remote) (parent : String) (blocks : List Json)
    (is_page : Bool) (delete_existing : Bool) (s : St) :
    Except Err (List String) × St :=
  if delete_existing then
    match get_children_tree R parent is_page s with
    | (.error e, s1) => (.error (Err.rerr e), s1)
    | (.ok existing, s1) =>
      match reversedIter existing with
      | .error e => (.error e, s1)
      | .ok revkids =>
        match delete_loop R revkids s1 with
        | (.error e, s2) => (.error e, s2)
        | (.ok _, s2) => insert_loop R parent blocks is_page s2
  else insert_loop R parent blocks is_page s

/-- The child list `_insert_block_tree` iterates over for a given spec:
`block_data.get("children", []) or []`, as a total function (empty on the
shapes whose processing raises before reaching the loop). -/
def kidsOf : Json → List Json
  | .obj fs =>
    match iterChildren ((lookupF "children" fs).getD (Json.arr [])) with
    | .ok l => l
    | .error _ => []
  | _ => []

/-- Responses the oracle hands to a sequence of calls issued starting from
delete-counter `d` and insert-counter `i`. -/
def respsAlong (R : Remote) (d i : Nat) : List Call → List (Except RErr Json)
  | [] => []
  | .fetch _ _ :: cs => R.fetchResp :: respsAlong R d i cs
  | .delete _ :: cs => R.deleteResps d :: respsAlong R (d + 1) i cs
  | .insert _ _ _ _ _ :: cs => R.insertResps i :: respsAlong R d (i + 1) cs

def AllOk (l : List (Except RErr Json)) : Prop := ∀ r ∈ l, ∃ j, r = .ok j

/-- Number of delete calls in a call list. -/
def countDel : List Call → Nat
  | [] => 0
  | .delete _ :: cs => countDel cs + 1
  | _ :: cs => countDel cs

/-- Number of insert calls in a call list. -/
def countIns : List Call → Nat
  | [] => 0
  | .insert _ _ _ _ _ :: cs => countIns cs + 1
  | _ :: cs => countIns cs

/-- Assertion that `s1` extends `s` by exactly the new calls `cs`, with consistent
per-kind counters. -/
def NewCalls (s s1 : St) (cs : List Call) : Prop :=
  s1.trace = s.trace ++ cs ∧
  s1.nDel = s.nDel + countDel cs ∧
  s1.nIns = s.nIns + countIns cs

/-- The transport/HTTP error carried by a result, if any. -/
def errOf {α : Type} : Except Err α → Option RErr
  | .error (.rerr e) => some e
  | _ => none

/-- The transport/HTTP error carried by a raw remote response, if any. -/
def errOfR : Except RErr Json → Option RErr
  | .error e => some e
  | .ok _ => none

/-- Faithful trace/abort behaviour of one engine step from `s` to `s1`:
some list of new calls was issued in order; if the step raised a
transport/HTTP error `e`, the last issued call's response is `.error e`,
every earlier new call's response was ok, and no further call was issued;
otherwise every new call's response was ok. -/
def TraceOK (R : Remote) (s s1 : St) (err : Option RErr) : Prop :=
  ∃ cs, NewCalls s s1 cs ∧
    match err with
    | none => AllOk (respsAlong R s.nDel s.nIns cs)
    | some e => ∃ cs0 c, cs = cs0 ++ [c] ∧
        AllOk (respsAlong R s.nDel s.nIns cs0) ∧
        respsAlong R s.nDel s.nIns cs =
          respsAlong R s.nDel s.nIns cs0 ++ [.error e]

mutual
/-- Well-formed block specification per the spec's data model: an object with
a `content` field whose `children` field, when present and truthy, is a list
of well-formed specifications. -/
inductive WFspec : Json → Prop where
  | mk : ∀ fs, (lookupF "content" fs).isSome = true →
      ChildrenWF (lookupF "children" fs) → WFspec (Json.obj fs)
/-- Well-formedness of the optional `children` field value. -/
inductive ChildrenWF : Option Json → Prop where
  | miss : ChildrenWF none
  | falsy : ∀ v, v.truthy = false → ChildrenWF (some v)
  | arr : ∀ xs, (∀ x ∈ xs, WFspec x) → ChildrenWF (some (Json.arr xs))
end

/-- Every insert response decodes to a nonempty extractable identifier. -/
def HExtract (R : Remote) : Prop :=
  ∀ n, ∃ j u, R.insertResps n = .ok j ∧ extract_block_uuid j = some u ∧ u ≠ ""

/-- Remote oracle of the spec's concrete scenario: two pre-existing children
`c1`, `c2` and fresh insert identifiers `u1`, `u2`, `u3` in call order. -/
def remoteC1 : Remote where
  fetchResp := .ok (Json.arr [Json.obj [("uuid", Json.str "c1")],
                              Json.obj [("uuid", Json.str "c2")]])
  deleteResps := fun _ => .ok Json.null
  insertResps := fun n =>
    .ok (Json.str (match n with | 0 => "u1" | 1 => "u2" | _ => "u3"))

/-- Block forest of the spec's concrete scenario. -/
def blocksC1 : List Json :=
  [Json.obj [("content", Json.str "Task 1"),
             ("children", Json.arr [Json.obj [("content", Json.str "Sub 1.1")]])],
   Json.obj [("content", Json.str "Task 2")]]

/-- Remote whose every insert call answers with the bare empty string. -/
def remoteEmptyId : Remote where
  fetchResp := .ok Json.null
  deleteResps := fun _ => .ok Json.null
  insertResps := fun _ => .ok (Json.str "")

/-- Remote whose fetch yields a children list containing a bare (non-object)
descriptor. -/
def remoteBadChild : Remote where
  fetchResp := .ok (Json.arr [Json.str "x"])
  deleteResps := fun _ => .ok Json.null
  insertResps := fun _ => .ok Json.null

/-- Remote answering the first insert with the empty string and later
inserts with a fresh identifier. -/
def remoteC10 : Remote where
  fetchResp := .ok Json.null
  deleteResps := fun _ => .ok Json.null
  insertResps := fun n => .ok (Json.str (match n with | 0 => "" | _ => "k1"))

/-- Single root spec with one child, used for the empty-identifier scenario. -/
def blocksC10 : List Json :=
  [Json.obj [("content", Json.str "A"),
             ("children", Json.arr [Json.obj [("content", Json.str "B")]])]]

/-- The delete calls the deletion loop issues for a descriptor list (in the
order given): one delete per object descriptor whose `uuid` value is a
string, others skipped. -/
def deleteCallsOf : List Json → List Call
  | [] => []
  | .obj fs :: cs =>
    match lookupF "uuid" fs with
    | some (.str u) => Call.delete u :: deleteCallsOf cs
    | _ => deleteCallsOf cs
  | _ :: cs => deleteCallsOf cs

/-- Remove every binding of key `k` from a field list. -/
def removeKey (k : String) : List (String × Json) → List (String × Json)
  | [] => []
  | (k', v) :: fs =>
    if k' = k then removeKey k fs else (k', v) :: removeKey k fs

/-- Remote whose first delete call fails with a `RemoteError` and whose fetch
yields one child. -/
def remoteC7 : Remote where
  fetchResp := .ok (Json.arr [Json.obj [("uuid", Json.str "c1")]])
  deleteResps := fun _ => .error (RErr.remote "boom")
  insertResps := fun _ => .ok Json.null

/-- Remote that always succeeds, answering every insert with the fresh
identifier string `"u"`. -/
def remoteOk : Remote where
  fetchResp := .ok Json.null
  deleteResps := fun _ => .ok Json.null
  insertResps := fun _ => .ok (Json.str "u")

/-- Remote whose insert responses are objects carrying no identifier. -/
def remoteNoId : Remote where
  fetchResp := .ok Json.null
  deleteResps := fun _ => .ok Json.null
  insertResps := fun _ => .ok (Json.obj [("status", Json.str "ok")])

theorem depthList_le_of_mem {x : Json} {xs : List Json} (h : x ∈ xs) :
    depthJ x ≤ depthList xs := by
  induction xs with
  | nil => cases h
  | cons y ys ih =>
    rcases List.mem_cons.mp h with rfl | hm
    · simp [depthList]
    · simp only [depthList]
      exact le_trans (ih hm) (le_max_right _ _)

theorem depthFields_le_of_lookup {k : String} {v : Json}
    {fs : List (String × Json)} (h : lookupF k fs = some v) :
    depthJ v ≤ depthFields fs := by
  induction fs with
  | nil => simp [lookupF] at h
  | cons p ps ih =>
    obtain ⟨k', w⟩ := p
    simp only [lookupF] at h
    by_cases hk : k' = k
    · simp only [hk, if_pos rfl] at h
      cases h
      simp only [depthFields]
      exact le_max_left _ _
    · simp only [if_neg hk] at h
      simp only [depthFields]
      exact le_trans (ih h) (le_max_right _ _)

theorem iterChildren_mem_depth_le {v c : Json} {l : List Json}
    (h : iterChildren v = .ok l) (hc : c ∈ l) : depthJ c ≤ depthJ v := by
  unfold iterChildren at h
  by_cases ht : v.truthy = false
  · rw [if_pos ht] at h
    cases h
    cases hc
  · rw [if_neg ht] at h
    cases v with
    | arr xs =>
      cases h
      have hle := depthList_le_of_mem hc
      simp only [depthJ]
      omega
    | str s =>
      cases h
      rcases List.mem_map.mp hc with ⟨ch, _, rfl⟩
      simp [depthJ]
    | obj fs =>
      cases h
      rcases List.mem_map.mp hc with ⟨p, _, rfl⟩
      simp [depthJ]
    | null => cases h
    | bool b => cases h
    | num n => cases h

theorem kidsOf_depth_lt {c b : Json} (h : c ∈ kidsOf b) :
    depthJ c < depthJ b := by
  cases b with
  | obj fs =>
    simp only [kidsOf] at h
    rcases hic : iterChildren ((lookupF "children" fs).getD (Json.arr [])) with e | l
    · rw [hic] at h
      cases h
    · rw [hic] at h
      rcases hl : lookupF "children" fs with _ | v
      · rw [hl] at hic
        simp only [Option.getD] at hic
        have : l = [] := by
          have : iterChildren (Json.arr []) = .ok ([] : List Json) := rfl
          rw [this] at hic
          cases hic
          rfl
        subst this
        cases h
      · rw [hl] at hic
        simp only [Option.getD] at hic
        have h1 : depthJ c ≤ depthJ v := iterChildren_mem_depth_le hic h
        have h2 : depthJ v ≤ depthFields fs := depthFields_le_of_lookup hl
        have h3 : depthJ (Json.obj fs) = 1 + depthFields fs := by simp [depthJ]
        omega
  | null => cases h
  | bool b => cases h
  | num n => cases h
  | str s => cases h
  | arr xs => cases h

theorem seqKids_congr {step1 step2 : Json → St → Except Err (Option String) × St}
    {kids : List Json} (h : ∀ c ∈ kids, ∀ s', step1 c s' = step2 c s') :
    ∀ s, seqKids step1 kids s = seqKids step2 kids s := by
  induction kids with
  | nil => intro s; rfl
  | cons c cs ih =>
    intro s
    have hc := h c (List.mem_cons_self c cs) s
    simp only [seqKids, hc]
    rcases hstep : step2 c s with ⟨r, s'⟩
    cases r with
    | error e => rfl
    | ok _ => exact ih (fun d hd s'' => h d (List.mem_cons_of_mem _ hd) s'') s'

theorem dictGet_ok_obj {b : Json} {k : String} {d v : Json}
    (h : dictGet b k d = .ok v) :
    ∃ fs, b = Json.obj fs ∧ v = (lookupF k fs).getD d := by
  cases b with
  | obj fs =>
    refine ⟨fs, rfl, ?_⟩
    simp only [dictGet] at h
    cases h
    rfl
  | null => simp [dictGet] at h
  | bool bb => simp [dictGet] at h
  | num n => simp [dictGet] at h
  | str s => simp [dictGet] at h
  | arr xs => simp [dictGet] at h

theorem kidsOf_obj_eq {fs : List (String × Json)} {l : List Json}
    (h : iterChildren ((lookupF "children" fs).getD (Json.arr [])) = .ok l) :
    kidsOf (Json.obj fs) = l := by
  simp only [kidsOf]
  rw [h]

theorem ibtBody_congr {R : Remote}
    {rec1 rec2 : String → Json → St → Except Err (Option String) × St}
    {parent : String} {b : Json} {ipb : Bool} {s : St}
    (h : ∀ u c s', c ∈ kidsOf b → rec1 u c s' = rec2 u c s') :
    ibtBody R rec1 parent b ipb s = ibtBody R rec2 parent b ipb s := by
  rcases hmc : memberCheck b "content" with e | tf
  · simp only [ibtBody, hmc]
  · cases tf
    · simp only [ibtBody, hmc]
    · rcases hgi : getItem b "content" with e | content
      · simp only [ibtBody, hmc, hgi]
      · rcases hcu : dictGet b "custom_uuid" Json.null with e | cu
        · simp only [ibtBody, hmc, hgi, hcu]
        · rcases hib : R.insertResps s.nIns with e | result
          · simp only [ibtBody, hmc, hgi, hcu, insert_block, hib]
          · rcases hex : extract_block_uuid result with _ | u
            · simp only [ibtBody, hmc, hgi, hcu, insert_block, hib, hex]
            · rcases hch : dictGet b "children" (Json.arr []) with e | chv
              · simp only [ibtBody, hmc, hgi, hcu, insert_block, hib, hex, hch]
              · rcases hic : iterChildren chv with e | kids
                · simp only [ibtBody, hmc, hgi, hcu, insert_block, hib, hex, hch, hic]
                · have hkids : kidsOf b = kids := by
                    rcases dictGet_ok_obj hch with ⟨fs, rfl, hv⟩
                    exact kidsOf_obj_eq (hv ▸ hic)
                  have hseq := @seqKids_congr
                    (fun c s' => rec1 u c s')
                    (fun c s' => rec2 u c s')
                    kids
                    (fun c hcm s' => h u c s' (hkids ▸ hcm))
                  simp only [ibtBody, hmc, hgi, hcu, insert_block, hib, hex, hch, hic, hseq]

theorem ibt_fuel_irrelevant (R : Remote) :
    ∀ f1 f2 (parent : String) (b : Json) (ipb : Bool) (s : St),
    depthJ b < f1 → depthJ b < f2 →
    ibt R f1 parent b ipb s = ibt R f2 parent b ipb s := by
  intro f1
  induction f1 with
  | zero => intro f2 p b ipb s h1 _; exact absurd h1 (Nat.not_lt_zero _)
  | succ f1' ih =>
    intro f2 p b ipb s h1 h2
    cases f2 with
    | zero => exact absurd h2 (Nat.not_lt_zero _)
    | succ f2' =>
      simp only [ibt]
      apply ibtBody_congr
      intro u c s' hc
      have hlt := kidsOf_depth_lt hc
      exact ih f2' u c false s' (by omega) (by omega)

/-- Fuel-free unfolding of `insert_block_tree`: it performs one `ibtBody`
step whose recursive child calls are again `insert_block_tree`. -/
theorem insert_block_tree_unfold (R : Remote) (parent : String) (b : Json)
    (ipb : Bool) (s : St) :
    insert_block_tree R parent b ipb s =
      ibtBody R (fun u c s' => insert_block_tree R u c false s') parent b ipb s := by
  unfold insert_block_tree
  simp only [ibt]
  apply ibtBody_congr
  intro u c s' hc
  have hlt := kidsOf_depth_lt hc
  exact ibt_fuel_irrelevant R (depthJ b) (depthJ c + 1) u c false s' (by omega) (by omega)


theorem memberCheck_no_rerr {b : Json} {k : String} {e : Err}
    (h : memberCheck b k = .error e) : e = Err.typeError := by
  cases b <;> simp [memberCheck] at h
  all_goals exact h.symm

theorem getItem_no_rerr {b : Json} {k : String} {e : Err}
    (h : getItem b k = .error e) : e = Err.typeError ∨ e = Err.keyError := by
  cases b with
  | obj fs =>
    rcases hl : lookupF k fs with _ | v
    · right
      simp [getItem, hl] at h
      exact h.symm
    · simp [getItem, hl] at h
  | null => left; simp [getItem] at h; exact h.symm
  | bool bb => left; simp [getItem] at h; exact h.symm
  | num n => left; simp [getItem] at h; exact h.symm
  | str s => left; simp [getItem] at h; exact h.symm
  | arr xs => left; simp [getItem] at h; exact h.symm

theorem dictGet_no_rerr {b : Json} {k : String} {d : Json} {e : Err}
    (h : dictGet b k d = .error e) : e = Err.attributeError := by
  cases b <;> simp [dictGet] at h
  all_goals exact h.symm

theorem iterChildren_no_rerr {v : Json} {e : Err}
    (h : iterChildren v = .error e) : e = Err.typeError := by
  unfold iterChildren at h
  by_cases ht : v.truthy = false
  · rw [if_pos ht] at h; cases h
  · rw [if_neg ht] at h
    cases v <;> simp at h
    all_goals exact h.symm

theorem reversedIter_no_rerr {v : Json} {e : Err}
    (h : reversedIter v = .error e) : e = Err.typeError := by
  cases v <;> simp [reversedIter] at h
  all_goals exact h.symm

theorem countDel_append (l1 l2 : List Call) :
    countDel (l1 ++ l2) = countDel l1 + countDel l2 := by
  induction l1 with
  | nil => simp [countDel]
  | cons c cs ih => cases c <;> (simp [countDel, ih]; try omega)

theorem countIns_append (l1 l2 : List Call) :
    countIns (l1 ++ l2) = countIns l1 + countIns l2 := by
  induction l1 with
  | nil => simp [countIns]
  | cons c cs ih => cases c <;> (simp [countIns, ih]; try omega)

theorem respsAlong_append (R : Remote) (d i : Nat) (cs1 cs2 : List Call) :
    respsAlong R d i (cs1 ++ cs2) =
      respsAlong R d i cs1 ++
        respsAlong R (d + countDel cs1) (i + countIns cs1) cs2 := by
  induction cs1 generalizing d i with
  | nil => simp [respsAlong, countDel, countIns]
  | cons c cs ih =>
    cases c with
    | fetch p ip =>
      simp [respsAlong, ih, countDel, countIns]
    | delete u =>
      simp [respsAlong, ih, countDel, countIns]
      have h1 : d + 1 + countDel cs = d + (countDel cs + 1) := by omega
      rw [h1]
    | insert p ct ipb bf cu =>
      simp [respsAlong, ih, countDel, countIns]
      have h1 : i + 1 + countIns cs = i + (countIns cs + 1) := by omega
      rw [h1]

theorem NewCalls_refl (s : St) : NewCalls s s [] :=
  ⟨by simp, by simp [countDel], by simp [countIns]⟩

theorem NewCalls_trans {s s1 s2 : St} {cs1 cs2 : List Call}
    (h1 : NewCalls s s1 cs1) (h2 : NewCalls s1 s2 cs2) :
    NewCalls s s2 (cs1 ++ cs2) := by
  obtain ⟨t1, d1, i1⟩ := h1
  obtain ⟨t2, d2, i2⟩ := h2
  refine ⟨?_, ?_, ?_⟩
  · rw [t2, t1, List.append_assoc]
  · rw [d2, d1, countDel_append]; omega
  · rw [i2, i1, countIns_append]; omega

theorem AllOk_append {l1 l2 : List (Except RErr Json)}
    (h1 : AllOk l1) (h2 : AllOk l2) : AllOk (l1 ++ l2) := by
  intro r hr
  rcases List.mem_append.mp hr with hm | hm
  · exact h1 r hm
  · exact h2 r hm

theorem TraceOK_refl (R : Remote) (s : St) : TraceOK R s s none := by
  refine ⟨[], NewCalls_refl s, ?_⟩
  intro r hr
  simp [respsAlong] at hr

theorem TraceOK_seq {R : Remote} {s s1 s2 : St} {x : Option RErr}
    (h1 : TraceOK R s s1 none) (h2 : TraceOK R s1 s2 x) : TraceOK R s s2 x := by
  obtain ⟨cs1, hnc1, hok1⟩ := h1
  obtain ⟨cs2, hnc2, hrest⟩ := h2
  have hshift : ∀ cs' : List Call, respsAlong R s1.nDel s1.nIns cs' =
      respsAlong R (s.nDel + countDel cs1) (s.nIns + countIns cs1) cs' := by
    intro cs'
    rw [hnc1.2.1, hnc1.2.2]
  refine ⟨cs1 ++ cs2, NewCalls_trans hnc1 hnc2, ?_⟩
  cases x with
  | none =>
    show AllOk (respsAlong R s.nDel s.nIns (cs1 ++ cs2))
    rw [respsAlong_append]
    exact AllOk_append hok1 (by rw [← hshift]; exact hrest)
  | some e =>
    obtain ⟨cs0, c, hcs2, hok0, hlast⟩ := hrest
    refine ⟨cs1 ++ cs0, c, by rw [hcs2, List.append_assoc], ?_, ?_⟩
    · rw [respsAlong_append]
      refine AllOk_append hok1 ?_
      rw [← hshift]
      exact hok0
    · have e1 := respsAlong_append R s.nDel s.nIns cs1 cs2
      have e2 := respsAlong_append R s.nDel s.nIns cs1 cs0
      rw [e1, e2, ← hshift cs2, ← hshift cs0, hlast, List.append_assoc]

theorem TraceOK_call_ok {R : Remote} {s s' : St} {c : Call} {j : Json}
    (htr : s'.trace = s.trace ++ [c])
    (hd : s'.nDel = s.nDel + countDel [c])
    (hi : s'.nIns = s.nIns + countIns [c])
    (hresp : respsAlong R s.nDel s.nIns [c] = [.ok j]) :
    TraceOK R s s' none := by
  refine ⟨[c], ⟨htr, hd, hi⟩, ?_⟩
  intro r hr
  rw [hresp] at hr
  rcases List.mem_singleton.mp hr with rfl
  exact ⟨j, rfl⟩

theorem TraceOK_call_error {R : Remote} {s s' : St} {c : Call} {e : RErr}
    (htr : s'.trace = s.trace ++ [c])
    (hd : s'.nDel = s.nDel + countDel [c])
    (hi : s'.nIns = s.nIns + countIns [c])
    (hresp : respsAlong R s.nDel s.nIns [c] = [.error e]) :
    TraceOK R s s' (some e) := by
  refine ⟨[c], ⟨htr, hd, hi⟩, [], c, by simp, ?_, ?_⟩
  · intro r hr
    simp [respsAlong] at hr
  · rw [hresp]
    simp [respsAlong]

theorem errOf_error (α β : Type) (e : Err) :
    errOf (Except.error e : Except Err α) = errOf (Except.error e : Except Err β) := by
  cases e <;> rfl

theorem seqKids_traceOK {R : Remote}
    {step : Json → St → Except Err (Option String) × St} {kids : List Json}
    (hstep : ∀ c ∈ kids, ∀ s rc sc, step c s = (rc, sc) → TraceOK R s sc (errOf rc)) :
    ∀ s r s1, seqKids step kids s = (r, s1) → TraceOK R s s1 (errOf r) := by
  induction kids with
  | nil =>
    intro s r s1 h
    simp only [seqKids] at h
    injection h with h1 h2
    subst h1
    subst h2
    exact TraceOK_refl R s
  | cons c cs ih =>
    intro s r s1 h
    simp only [seqKids] at h
    rcases hc : step c s with ⟨rc, sc⟩
    rw [hc] at h
    cases rc with
    | error e =>
      injection h with h1 h2
      subst h1
      subst h2
      have hx := hstep c (List.mem_cons_self c cs) s _ _ hc
      rwa [errOf_error (Option String) Unit e] at hx
    | ok v =>
      exact TraceOK_seq (hstep c (List.mem_cons_self c cs) s _ _ hc)
        (ih (fun d hd s' rc' sc' h' => hstep d (List.mem_cons_of_mem _ hd) s' rc' sc' h') sc r s1 h)

theorem ibtBody_traceOK {R : Remote}
    {rec : String → Json → St → Except Err (Option String) × St}
    {parent : String} {b : Json} {ipb : Bool} {s : St}
    {r : Except Err (Option String)} {s1 : St}
    (hrec : ∀ u c s' rc sc, c ∈ kidsOf b → rec u c s' = (rc, sc) →
        TraceOK R s' sc (errOf rc))
    (h : ibtBody R rec parent b ipb s = (r, s1)) :
    TraceOK R s s1 (errOf r) := by
  rcases hmc : memberCheck b "content" with e | tf
  · simp only [ibtBody, hmc] at h
    injection h with h1 h2
    subst h1
    subst h2
    have he := memberCheck_no_rerr hmc
    subst he
    exact TraceOK_refl R s
  · cases tf with
    | false =>
      simp only [ibtBody, hmc] at h
      injection h with h1 h2
      subst h1
      subst h2
      exact TraceOK_refl R s
    | true =>
      rcases hgi : getItem b "content" with e | content
      · simp only [ibtBody, hmc, hgi] at h
        injection h with h1 h2
        subst h1
        subst h2
        rcases getItem_no_rerr hgi with he | he <;> subst he <;> exact TraceOK_refl R s
      · rcases hcu : dictGet b "custom_uuid" Json.null with e | cu
        · simp only [ibtBody, hmc, hgi, hcu] at h
          injection h with h1 h2
          subst h1
          subst h2
          have he := dictGet_no_rerr hcu
          subst he
          exact TraceOK_refl R s
        · rcases hib : R.insertResps s.nIns with e | result
          · simp only [ibtBody, hmc, hgi, hcu, insert_block, hib] at h
            injection h with h1 h2
            subst h1
            subst h2
            refine TraceOK_call_error (c := Call.insert parent content ipb false cu)
              (by simp) (by simp [countDel]) (by simp [countIns]) ?_
            simp [respsAlong, hib]
          · have hcall : TraceOK R s
                { s with nIns := s.nIns + 1,
                         trace := s.trace ++ [Call.insert parent content ipb false cu] }
                none := by
              refine TraceOK_call_ok (c := Call.insert parent content ipb false cu)
                (j := result) (by simp) (by simp [countDel]) (by simp [countIns]) ?_
              simp [respsAlong, hib]
            rcases hex : extract_block_uuid result with _ | u
            · simp only [ibtBody, hmc, hgi, hcu, insert_block, hib, hex] at h
              injection h with h1 h2
              subst h1
              subst h2
              refine TraceOK_call_ok (c := Call.insert parent content ipb false cu)
                (j := result) (by simp) (by simp [countDel]) (by simp [countIns]) ?_
              simp [respsAlong, hib]
            · rcases hch : dictGet b "children" (Json.arr []) with e | chv
              · simp only [ibtBody, hmc, hgi, hcu, insert_block, hib, hex, hch] at h
                injection h with h1 h2
                subst h1
                subst h2
                have he := dictGet_no_rerr hch
                subst he
                exact hcall
              · rcases hic : iterChildren chv with e | kids
                · simp only [ibtBody, hmc, hgi, hcu, insert_block, hib, hex, hch, hic] at h
                  injection h with h1 h2
                  subst h1
                  subst h2
                  have he := iterChildren_no_rerr hic
                  subst he
                  exact hcall
                · have hkids : kidsOf b = kids := by
                    rcases dictGet_ok_obj hch with ⟨fs, rfl, hv⟩
                    exact kidsOf_obj_eq (hv ▸ hic)
                  rcases hseq : seqKids (fun c s' => rec u c s') kids
                      { s with nIns := s.nIns + 1,
                               trace := s.trace ++
                                 [Call.insert parent content ipb false cu] }
                      with ⟨rk, s2⟩
                  have hseqOK : TraceOK R
                      { s with nIns := s.nIns + 1,
                               trace := s.trace ++
                                 [Call.insert parent content ipb false cu] }
                      s2 (errOf rk) := by
                    refine seqKids_traceOK ?_ _ _ _ hseq
                    intro c hcm s' rc sc h'
                    exact hrec u c s' rc sc (hkids ▸ hcm) h'
                  simp only [ibtBody, hmc, hgi, hcu, insert_block, hib, hex, hch, hic,
                    hseq] at h
                  cases rk with
                  | error e =>
                    injection h with h1 h2
                    subst h1
                    subst h2
                    rw [errOf_error Unit (Option String) e] at hseqOK
                    exact TraceOK_seq hcall hseqOK
                  | ok v =>
                    injection h with h1 h2
                    subst h1
                    subst h2
                    exact TraceOK_seq hcall hseqOK

theorem ibt_traceOK (R : Remote) :
    ∀ f (parent : String) (b : Json) (ipb : Bool) (s : St) r s1,
    ibt R f parent b ipb s = (r, s1) → TraceOK R s s1 (errOf r) := by
  intro f
  induction f with
  | zero =>
    intro p b ipb s r s1 h
    simp only [ibt] at h
    injection h with h1 h2
    subst h1
    subst h2
    exact TraceOK_refl R s
  | succ f ih =>
    intro p b ipb s r s1 h
    simp only [ibt] at h
    exact ibtBody_traceOK (fun u c s' rc sc _ h' => ih u c false s' rc sc h') h

theorem insert_block_tree_traceOK {R : Remote} {parent : String} {b : Json}
    {ipb : Bool} {s : St} {r : Except Err (Option String)} {s1 : St}
    (h : insert_block_tree R parent b ipb s = (r, s1)) :
    TraceOK R s s1 (errOf r) :=
  ibt_traceOK R (depthJ b + 1) parent b ipb s r s1 h

theorem delete_loop_traceOK (R : Remote) :
    ∀ (kids : List Json) (s : St) r s1,
    delete_loop R kids s = (r, s1) → TraceOK R s s1 (errOf r) := by
  intro kids
  induction kids with
  | nil =>
    intro s r s1 h
    simp only [delete_loop] at h
    injection h with h1 h2
    subst h1
    subst h2
    exact TraceOK_refl R s
  | cons c cs ih =>
    intro s r s1 h
    simp only [delete_loop] at h
    rcases hdg : dictGet c "uuid" Json.null with e | u
    · rw [hdg] at h
      injection h with h1 h2
      subst h1
      subst h2
      have he := dictGet_no_rerr hdg
      subst he
      exact TraceOK_refl R s
    · rw [hdg] at h
      cases u with
      | str us =>
        rcases hdel : R.deleteResps s.nDel with e | j
        · simp only [delete_block, hdel] at h
          injection h with h1 h2
          subst h1
          subst h2
          refine TraceOK_call_error (c := Call.delete us)
            (by simp) (by simp [countDel]) (by simp [countIns]) ?_
          simp [respsAlong, hdel]
        · simp only [delete_block, hdel] at h
          have hcall : TraceOK R s
              { s with nDel := s.nDel + 1, trace := s.trace ++ [Call.delete us] }
              none := by
            refine TraceOK_call_ok (c := Call.delete us) (j := j)
              (by simp) (by simp [countDel]) (by simp [countIns]) ?_
            simp [respsAlong, hdel]
          exact TraceOK_seq hcall (ih _ r s1 h)
      | null => exact ih s r s1 h
      | bool bb => exact ih s r s1 h
      | num n => exact ih s r s1 h
      | arr xs => exact ih s r s1 h
      | obj fs => exact ih s r s1 h

theorem insert_loop_traceOK (R : Remote) (parent : String) :
    ∀ (blocks : List Json) (ip : Bool) (s : St) r s1,
    insert_loop R parent blocks ip s = (r, s1) → TraceOK R s s1 (errOf r) := by
  intro blocks
  induction blocks with
  | nil =>
    intro ip s r s1 h
    simp only [insert_loop] at h
    injection h with h1 h2
    subst h1
    subst h2
    exact TraceOK_refl R s
  | cons b bs ih =>
    intro ip s r s1 h
    simp only [insert_loop] at h
    rcases hb : insert_block_tree R parent b ip s with ⟨rb, sb⟩
    rw [hb] at h
    cases rb with
    | error e =>
      injection h with h1 h2
      subst h1
      subst h2
      have hx := insert_block_tree_traceOK hb
      rwa [errOf_error (Option String) (List String) e] at hx
    | ok nu =>
      dsimp only at h
      rcases hrest : insert_loop R parent bs ip sb with ⟨rr, sr⟩
      rw [hrest] at h
      cases rr with
      | error e =>
        injection h with h1 h2
        subst h1
        subst h2
        exact TraceOK_seq (insert_block_tree_traceOK hb) (ih ip sb _ _ hrest)
      | ok lst =>
        injection h with h1 h2
        subst h1
        subst h2
        exact TraceOK_seq (insert_block_tree_traceOK hb) (ih ip sb (.ok lst) sr hrest)

theorem get_children_tree_traceOK {R : Remote} {parent : String} {ip : Bool}
    {s : St} {r : Except RErr Json} {s1 : St}
    (h : get_children_tree R parent ip s = (r, s1)) :
    TraceOK R s s1 (errOfR r) := by
  simp only [get_children_tree] at h
  rcases hf : R.fetchResp with e | tree
  · rw [hf] at h
    injection h with h1 h2
    subst h1
    subst h2
    refine TraceOK_call_error (c := Call.fetch parent ip)
      (by simp) (by simp [countDel]) (by simp [countIns]) ?_
    simp [respsAlong, hf]
  · rw [hf] at h
    dsimp only at h
    have hcall : ∀ s' : St, s'.trace = s.trace ++ [Call.fetch parent ip] →
        s'.nDel = s.nDel → s'.nIns = s.nIns → TraceOK R s s' none := by
      intro s' h1 h2 h3
      refine TraceOK_call_ok (c := Call.fetch parent ip) (j := tree)
        h1 (by simp [countDel, h2]) (by simp [countIns, h3]) ?_
      simp [respsAlong, hf]
    by_cases ht : tree.truthy = false
    · rw [if_pos ht] at h
      injection h with h1 h2
      subst h1
      subst h2
      exact hcall _ (by simp) rfl rfl
    · rw [if_neg ht] at h
      cases tree with
      | obj fs =>
        injection h with h1 h2
        subst h1
        subst h2
        exact hcall _ (by simp) rfl rfl
      | arr xs =>
        injection h with h1 h2
        subst h1
        subst h2
        exact hcall _ (by simp) rfl rfl
      | null =>
        injection h with h1 h2
        subst h1
        subst h2
        exact hcall _ (by simp) rfl rfl
      | bool bb =>
        injection h with h1 h2
        subst h1
        subst h2
        exact hcall _ (by simp) rfl rfl
      | num n =>
        injection h with h1 h2
        subst h1
        subst h2
        exact hcall _ (by simp) rfl rfl
      | str st =>
        injection h with h1 h2
        subst h1
        subst h2
        exact hcall _ (by simp) rfl rfl

theorem replace_children_traceOK {R : Remote} {parent : String}
    {blocks : List Json} {ip de : Bool} {s : St}
    {r : Except Err (List String)} {s1 : St}
    (h : replace_children R parent blocks ip de s = (r, s1)) :
    TraceOK R s s1 (errOf r) := by
  unfold replace_children at h
  cases de with
  | false =>
    rw [if_neg (by simp)] at h
    exact insert_loop_traceOK R parent blocks ip s r s1 h
  | true =>
    rw [if_pos rfl] at h
    rcases hg : get_children_tree R parent ip s with ⟨rg, sg⟩
    rw [hg] at h
    cases rg with
    | error e =>
      injection h with h1 h2
      subst h1
      subst h2
      exact get_children_tree_traceOK hg
    | ok ex =>
      dsimp only at h
      rcases hrev : reversedIter ex with e | revk
      · rw [hrev] at h
        injection h with h1 h2
        subst h1
        subst h2
        have he := reversedIter_no_rerr hrev
        subst he
        exact get_children_tree_traceOK hg
      · rw [hrev] at h
        dsimp only at h
        rcases hdl : delete_loop R revk sg with ⟨rd, sd⟩
        rw [hdl] at h
        cases rd with
        | error e =>
          injection h with h1 h2
          subst h1
          subst h2
          have hx := delete_loop_traceOK R revk sg _ _ hdl
          rw [errOf_error Unit (List String) e] at hx
          exact TraceOK_seq (get_children_tree_traceOK hg) hx
        | ok _ =>
          exact TraceOK_seq (get_children_tree_traceOK hg)
            (TraceOK_seq (delete_loop_traceOK R revk sg _ _ hdl)
              (insert_loop_traceOK R parent blocks ip sd r s1 h))

theorem iterChildren_arr (xs : List Json) : iterChildren (Json.arr xs) = .ok xs := by
  unfold iterChildren
  by_cases ht : (Json.arr xs).truthy = false
  · rw [if_pos ht]
    have : xs = [] := by
      simp [Json.truthy] at ht
      exact ht
    rw [this]
  · rw [if_neg ht]

theorem seqKids_success {step : Json → St → Except Err (Option String) × St}
    {kids : List Json}
    (h : ∀ c ∈ kids, ∀ s, ∃ v s', step c s = (.ok v, s')) :
    ∀ s, ∃ s', seqKids step kids s = (.ok (), s') := by
  induction kids with
  | nil => intro s; exact ⟨s, rfl⟩
  | cons c cs ih =>
    intro s
    obtain ⟨v, s', hv⟩ := h c (List.mem_cons_self c cs) s
    obtain ⟨s'', hs''⟩ := ih (fun d hd => h d (List.mem_cons_of_mem _ hd)) s'
    refine ⟨s'', ?_⟩
    simp only [seqKids, hv, hs'']

theorem insert_block_tree_success (R : Remote) (hR : HExtract R) :
    ∀ n (b : Json), depthJ b ≤ n → WFspec b → ∀ (p : String) (ip : Bool) (s : St),
    ∃ u s', insert_block_tree R p b ip s = (.ok (some u), s') ∧ u ≠ "" := by
  intro n
  induction n with
  | zero =>
    intro b hd hwf p ip s
    cases hwf with
    | mk fs hc hch => simp [depthJ] at hd
  | succ n ih =>
    intro b hd hwf p ip s
    cases hwf with
    | mk fs hc hch =>
      obtain ⟨cv, hcv⟩ := Option.isSome_iff_exists.mp hc
      obtain ⟨j, u, hj, hu, hne⟩ := hR s.nIns
      have hkids : ∃ kids,
          iterChildren ((lookupF "children" fs).getD (Json.arr [])) = .ok kids ∧
          ∀ c ∈ kids, WFspec c ∧ depthJ c ≤ n := by
        rcases hl : lookupF "children" fs with _ | v
        · exact ⟨[], rfl, by intro c hc'; cases hc'⟩
        · rw [hl] at hch
          cases hch with
          | falsy _ hv =>
            refine ⟨[], ?_, by intro c hc'; cases hc'⟩
            simp [Option.getD, iterChildren, hv]
          | arr xs hall =>
            refine ⟨xs, ?_, ?_⟩
            · simp only [Option.getD]
              exact iterChildren_arr xs
            · intro c hc'
              refine ⟨hall c hc', ?_⟩
              have hmem : c ∈ kidsOf (Json.obj fs) := by
                rw [kidsOf_obj_eq (by rw [hl]; exact iterChildren_arr xs)]
                exact hc'
              have := kidsOf_depth_lt hmem
              omega
      obtain ⟨kids, hik, hkprop⟩ := hkids
      have hseqAll : ∀ st, ∃ s2,
          seqKids (fun c s' => insert_block_tree R u c false s') kids st =
            (.ok (), s2) := by
        refine seqKids_success ?_
        intro c hcm st
        obtain ⟨uc, sc, heq, _⟩ :=
          ih c (hkprop c hcm).2 (hkprop c hcm).1 u false st
        exact ⟨some uc, sc, heq⟩
      rcases hrun : insert_block_tree R p (Json.obj fs) ip s with ⟨rr, sr⟩
      have horig := hrun
      rw [insert_block_tree_unfold] at hrun
      simp only [ibtBody, memberCheck, hcv, Option.isSome_some, getItem, dictGet,
        insert_block, hj, hu, hik] at hrun
      rw [(hseqAll _).choose_spec] at hrun
      injection hrun with h1 h2
      cases h1
      cases h2
      exact ⟨u, _, rfl, hne⟩

theorem insert_loop_success (R : Remote) (parent : String) (hR : HExtract R) :
    ∀ (blocks : List Json) (ip : Bool) (s : St),
    (∀ b ∈ blocks, WFspec b) →
    ∃ ids s', insert_loop R parent blocks ip s = (.ok ids, s') ∧
      ids.length = blocks.length ∧ ∀ u ∈ ids, u ≠ "" := by
  intro blocks
  induction blocks with
  | nil => intro ip s _; exact ⟨[], s, rfl, rfl, by intro u hu; cases hu⟩
  | cons b bs ih =>
    intro ip s hwf
    obtain ⟨u, s', hrun, hne⟩ :=
      insert_block_tree_success R hR (depthJ b) b le_rfl
        (hwf b (List.mem_cons_self b bs)) parent ip s
    obtain ⟨ids, s'', hrest, hlen, hall⟩ :=
      ih ip s' (fun d hd => hwf d (List.mem_cons_of_mem _ hd))
    refine ⟨u :: ids, s'', ?_, by simp [hlen], ?_⟩
    · simp only [insert_loop, hrun, hrest, if_pos hne]
    · intro v hv
      rcases List.mem_cons.mp hv with rfl | hm
      · exact hne
      · exact hall v hm

theorem insert_loop_append (R : Remote) (parent : String) (bs1 bs2 : List Json)
    (ip : Bool) : ∀ s, insert_loop R parent (bs1 ++ bs2) ip s =
      (match insert_loop R parent bs1 ip s with
       | (.error e, s1) => (.error e, s1)
       | (.ok ids1, s1) =>
         match insert_loop R parent bs2 ip s1 with
         | (.error e, s2) => (.error e, s2)
         | (.ok ids2, s2) => (.ok (ids1 ++ ids2), s2)) := by
  induction bs1 with
  | nil =>
    intro s
    simp only [List.nil_append, insert_loop]
    rcases h2 : insert_loop R parent bs2 ip s with ⟨r2, s2⟩
    cases r2 <;> rfl
  | cons b bs ih =>
    intro s
    simp only [List.cons_append, insert_loop]
    rcases hb : insert_block_tree R parent b ip s with ⟨rb, sb⟩
    cases rb with
    | error e => rfl
    | ok nu =>
      dsimp only
      rw [List.append_eq, ih sb]
      rcases h1 : insert_loop R parent bs ip sb with ⟨r1, s1⟩
      cases r1 with
      | error e => rfl
      | ok ids1 =>
        dsimp only
        rcases h2 : insert_loop R parent bs2 ip s1 with ⟨r2, s2⟩
        cases r2 with
        | error e => rfl
        | ok ids2 =>
          dsimp only
          cases nu with
          | none => rfl
          | some u =>
            by_cases hu : u = ""
            · simp [hu]
            · simp [hu]

theorem delete_loop_spec (R : Remote) (hdel : ∀ n, ∃ j, R.deleteResps n = .ok j) :
    ∀ (kids : List Json), (∀ c ∈ kids, ∃ fs, c = Json.obj fs) → ∀ s,
    ∃ s', delete_loop R kids s = (.ok (), s') ∧
      s'.trace = s.trace ++ deleteCallsOf kids ∧
      s'.nDel = s.nDel + (deleteCallsOf kids).length ∧
      s'.nIns = s.nIns ∧ s'.warns = s.warns := by
  intro kids
  induction kids with
  | nil =>
    intro _ s
    exact ⟨s, rfl, by simp [deleteCallsOf], by simp [deleteCallsOf], rfl, rfl⟩
  | cons c cs ih =>
    intro hobj s
    obtain ⟨fs, rfl⟩ := hobj c (List.mem_cons_self c cs)
    have hobj' := fun d hd => hobj d (List.mem_cons_of_mem _ hd)
    rcases hu : lookupF "uuid" fs with _ | u
    · obtain ⟨s', hrun, ht, hn, hni, hw⟩ := ih hobj' s
      refine ⟨s', ?_, ?_, ?_, hni, hw⟩
      · simp only [delete_loop, dictGet, hu, Option.getD]
        exact hrun
      · rw [ht]; simp [deleteCallsOf, hu]
      · rw [hn]; simp [deleteCallsOf, hu]
    · cases u with
      | str us =>
        obtain ⟨j, hj⟩ := hdel s.nDel
        obtain ⟨s', hrun, ht, hn, hni, hw⟩ :=
          ih hobj' { s with nDel := s.nDel + 1, trace := s.trace ++ [Call.delete us] }
        refine ⟨s', ?_, ?_, ?_, hni, hw⟩
        · simp only [delete_loop, dictGet, hu, Option.getD, delete_block, hj]
          exact hrun
        · rw [ht]; simp [deleteCallsOf, hu]
        · rw [hn]; simp [deleteCallsOf, hu]; omega
      | null =>
        obtain ⟨s', hrun, ht, hn, hni, hw⟩ := ih hobj' s
        refine ⟨s', ?_, ?_, ?_, hni, hw⟩
        · simp only [delete_loop, dictGet, hu, Option.getD]
          exact hrun
        · rw [ht]; simp [deleteCallsOf, hu]
        · rw [hn]; simp [deleteCallsOf, hu]
      | bool bb =>
        obtain ⟨s', hrun, ht, hn, hni, hw⟩ := ih hobj' s
        refine ⟨s', ?_, ?_, ?_, hni, hw⟩
        · simp only [delete_loop, dictGet, hu, Option.getD]
          exact hrun
        · rw [ht]; simp [deleteCallsOf, hu]
        · rw [hn]; simp [deleteCallsOf, hu]
      | num n =>
        obtain ⟨s', hrun, ht, hn, hni, hw⟩ := ih hobj' s
        refine ⟨s', ?_, ?_, ?_, hni, hw⟩
        · simp only [delete_loop, dictGet, hu, Option.getD]
          exact hrun
        · rw [ht]; simp [deleteCallsOf, hu]
        · rw [hn]; simp [deleteCallsOf, hu]
      | arr xs =>
        obtain ⟨s', hrun, ht, hn, hni, hw⟩ := ih hobj' s
        refine ⟨s', ?_, ?_, ?_, hni, hw⟩
        · simp only [delete_loop, dictGet, hu, Option.getD]
          exact hrun
        · rw [ht]; simp [deleteCallsOf, hu]
        · rw [hn]; simp [deleteCallsOf, hu]
      | obj gs =>
        obtain ⟨s', hrun, ht, hn, hni, hw⟩ := ih hobj' s
        refine ⟨s', ?_, ?_, ?_, hni, hw⟩
        · simp only [delete_loop, dictGet, hu, Option.getD]
          exact hrun
        · rw [ht]; simp [deleteCallsOf, hu]
        · rw [hn]; simp [deleteCallsOf, hu]

theorem get_children_tree_arr {R : Remote} {cs0 : List Json}
    (hf : R.fetchResp = .ok (Json.arr cs0)) (parent : String) (ip : Bool) (s : St) :
    get_children_tree R parent ip s =
      (.ok (Json.arr cs0),
       { s with trace := s.trace ++ [Call.fetch parent ip] }) := by
  simp only [get_children_tree, hf]
  by_cases ht : (Json.arr cs0).truthy = false
  · rw [if_pos ht]
    have : cs0 = [] := by
      simp [Json.truthy] at ht
      exact ht
    rw [this]
  · rw [if_neg ht]

theorem lookupF_removeKey_ne {k k' : String} (hne : k' ≠ k) :
    ∀ fs, lookupF k' (removeKey k fs) = lookupF k' fs := by
  intro fs
  induction fs with
  | nil => rfl
  | cons p ps ih =>
    obtain ⟨k0, v⟩ := p
    by_cases h0 : k0 = k
    · have hk0 : ¬ k0 = k' := fun hx => hne (hx.symm.trans h0)
      simp only [removeKey, if_pos h0, lookupF, if_neg hk0]
      exact ih
    · by_cases h1 : k0 = k'
      · simp only [removeKey, if_neg h0, lookupF, if_pos h1]
      · simp only [removeKey, if_neg h0, lookupF, if_neg h1]
        exact ih

theorem lookupF_removeKey_self (k : String) :
    ∀ fs, lookupF k (removeKey k fs) = none := by
  intro fs
  induction fs with
  | nil => rfl
  | cons p ps ih =>
    obtain ⟨k0, v⟩ := p
    by_cases h0 : k0 = k
    · simp only [removeKey, if_pos h0]
      exact ih
    · simp only [removeKey, if_neg h0, lookupF, if_neg h0]
      exact ih

/-- C1: in the spec's concrete scenario — `replace_children(parent="Page A",
blocks=[{content:"Task 1", children:[{content:"Sub 1.1"}]}, {content:"Task 2"}],
is_page=true, delete_existing=true)` against a remote whose fetch returns the
two pre-existing children `c1`, `c2` and whose inserts return `u1`, `u2`, `u3`
in call order — the remote mutation calls are exactly delete(c2), delete(c1),
insert("Page A","Task 1",{isPageBlock:true, before:false, customUUID:null}),
insert(u1,"Sub 1.1",{isPageBlock:false, before:false, customUUID:null}),
insert("Page A","Task 2",{isPageBlock:true, before:false, customUUID:null}),
preceded only by the children fetch, and the returned value is [u1, u3]. -/
theorem claim_C1_concrete_scenario :
    replace_children remoteC1 "Page A" blocksC1 true true St.init =
      (.ok ["u1", "u3"],
       { nDel := 2, nIns := 3,
         trace := [Call.fetch "Page A" true,
                   Call.delete "c2", Call.delete "c1",
                   Call.insert "Page A" (Json.str "Task 1") true false Json.null,
                   Call.insert "u1" (Json.str "Sub 1.1") false false Json.null,
                   Call.insert "Page A" (Json.str "Task 2") true false Json.null],
         warns := [] }) := rfl

/-- C2 (counterexample): with a remote whose insert call returns the bare
empty string, the single root spec's `insert_tree` run succeeds with the
non-None identifier `""` (extraction succeeds), yet `replace_children`
returns the empty list — so it does not collect every non-None identifier and
the returned length (0) differs from the number of root specs (1) even though
every insert call yielded a successfully extracted identifier. -/
theorem claim_C2_counterexample :
    (insert_block_tree remoteEmptyId "P"
        (Json.obj [("content", Json.str "A")]) true St.init).1 = .ok (some "") ∧
    (replace_children remoteEmptyId "P"
        [Json.obj [("content", Json.str "A")]] true false St.init).1 = .ok [] :=
  ⟨rfl, rfl⟩

/-- C2 (amended): `replace_children` invokes the tree inserter once per
root-level spec in input order and collects every non-None, **non-empty**
identifier, in order; in particular, for well-formed root specs, a fetch
reporting no existing children, and a remote whose every insert response
yields a nonempty extractable identifier, the returned list has exactly one
(nonempty) identifier per root spec. -/
theorem claim_C2_amended (R : Remote) (parent : String) (blocks : List Json)
    (ip de : Bool) (s : St)
    (hf : R.fetchResp = .ok Json.null)
    (hR : HExtract R)
    (hwf : ∀ b ∈ blocks, WFspec b) :
    ∃ ids s', replace_children R parent blocks ip de s = (.ok ids, s') ∧
      ids.length = blocks.length ∧ ∀ u ∈ ids, u ≠ "" := by
  cases de with
  | false =>
    obtain ⟨ids, s', hrun, hlen, hne⟩ := insert_loop_success R parent hR blocks ip s hwf
    refine ⟨ids, s', ?_, hlen, hne⟩
    simp only [replace_children, Bool.false_eq_true, if_false]
    exact hrun
  | true =>
    have hg : get_children_tree R parent ip s =
        (.ok (Json.arr []), { s with trace := s.trace ++ [Call.fetch parent ip] }) := by
      simp [get_children_tree, hf, Json.truthy]
    obtain ⟨ids, s', hrun, hlen, hne⟩ := insert_loop_success R parent hR blocks ip
      { s with trace := s.trace ++ [Call.fetch parent ip] } hwf
    refine ⟨ids, s', ?_, hlen, hne⟩
    simp only [replace_children, if_true, hg, reversedIter, delete_loop]
    exact hrun

/-- C2 (amended) witness: a concrete single-root instance of the amended
claim with a remote answering every insert with the identifier "u". -/
theorem claim_C2_amended_witness :
    ∃ ids s', replace_children remoteOk "P"
        [Json.obj [("content", Json.str "x")]] true true St.init = (.ok ids, s') ∧
      ids.length = [Json.obj [("content", Json.str "x")]].length ∧
      ∀ u ∈ ids, u ≠ "" := by
  refine claim_C2_amended remoteOk "P" _ true true St.init rfl ?_ ?_
  · intro n
    exact ⟨Json.str "u", "u", rfl, rfl, by decide⟩
  · intro b hb
    rcases List.mem_singleton.mp hb with rfl
    exact WFspec.mk _ rfl ChildrenWF.miss

/-- C3 (counterexample): for the object `{"uuid": 5, "id": "x"}` — a key
present with a non-string value — identifier extraction returns "x"
(the non-string `uuid` is skipped and the next key is tried), not None as the
claim states. -/
theorem claim_C3_counterexample :
    extract_block_uuid (Json.obj [("uuid", Json.num 5), ("id", Json.str "x")]) =
      some "x" := rfl

/-- C3 (amended): a string result is returned as-is; for an object the keys
`uuid` then `id` are tried in order at the top level and the first whose
value is a string is returned (a key present with a non-string value is
skipped, not a failure); if neither key holds a string, the same two keys
are tried the same way inside a nested `block` object; any other shape
yields None. -/
theorem claim_C3_amended :
    (∀ s, extract_block_uuid (Json.str s) = some s) ∧
    (∀ fs, extract_block_uuid (Json.obj fs) =
      (match lookupF "uuid" fs with
       | some (Json.str s) => some s
       | _ =>
         match lookupF "id" fs with
         | some (Json.str s) => some s
         | _ =>
           match lookupF "block" fs with
           | some (Json.obj bfs) =>
             (match lookupF "uuid" bfs with
              | some (Json.str s) => some s
              | _ =>
                match lookupF "id" bfs with
                | some (Json.str s) => some s
                | _ => none)
           | _ => none)) ∧
    extract_block_uuid Json.null = none ∧
    (∀ b, extract_block_uuid (Json.bool b) = none) ∧
    (∀ n, extract_block_uuid (Json.num n) = none) ∧
    (∀ xs, extract_block_uuid (Json.arr xs) = none) := by
  refine ⟨fun s => rfl, ?_, rfl, fun b => rfl, fun n => rfl, fun xs => rfl⟩
  intro fs
  rcases h1 : lookupF "uuid" fs with _ | u
  · rcases h2 : lookupF "id" fs with _ | i
    · simp only [extract_block_uuid, tryUuidKeys, h1, h2]
    · cases i <;> simp only [extract_block_uuid, tryUuidKeys, h1, h2]
  · cases u
    all_goals rcases h2 : lookupF "id" fs with _ | i
    all_goals try cases i
    all_goals simp only [extract_block_uuid, tryUuidKeys, h1, h2]

/-- C4 (counterexample): a fetched children list containing a malformed
(non-object) descriptor is not handled by skipping — the deletion loop raises
an AttributeError (Python `child.get` on a non-dict), contradicting the
claim's "no delete call, no exception ... for every fetched children list
including ones containing malformed descriptors". -/
theorem claim_C4_counterexample :
    (replace_children remoteBadChild "P" [] false true St.init).1 =
      .error Err.attributeError := rfl

/-- C4 (amended): when `delete_existing` is true and the fetched children are
all **object** descriptors (and deletes succeed), `replace_children` issues
exactly one delete per descriptor whose `uuid` value is a string, in exact
reverse fetch order, strictly before the insert phase; object descriptors
whose `uuid` is missing or not a string are skipped without a call and
without an exception. (A non-object descriptor instead raises an
AttributeError — `claim_C4_counterexample`.) -/
theorem claim_C4_amended (R : Remote) (parent : String) (blocks : List Json)
    (ip : Bool) (s : St) (cs0 : List Json)
    (hf : R.fetchResp = .ok (Json.arr cs0))
    (hobj : ∀ c ∈ cs0, ∃ fs, c = Json.obj fs)
    (hdel : ∀ n, ∃ j, R.deleteResps n = .ok j) :
    ∃ s2, replace_children R parent blocks ip true s =
        insert_loop R parent blocks ip s2 ∧
      s2.trace = s.trace ++ Call.fetch parent ip :: deleteCallsOf cs0.reverse ∧
      s2.nDel = s.nDel + (deleteCallsOf cs0.reverse).length ∧
      s2.nIns = s.nIns ∧
      ∀ r s3, insert_loop R parent blocks ip s2 = (r, s3) →
        ∃ cs', s3.trace = s2.trace ++ cs' := by
  have hg := get_children_tree_arr hf parent ip s
  have hobj' : ∀ c ∈ cs0.reverse, ∃ fs, c = Json.obj fs := by
    intro c hc
    exact hobj c (List.mem_reverse.mp hc)
  obtain ⟨s2, hdl, ht, hn, hni, _⟩ := delete_loop_spec R hdel cs0.reverse hobj'
    { s with trace := s.trace ++ [Call.fetch parent ip] }
  refine ⟨s2, ?_, ?_, ?_, hni, ?_⟩
  · simp only [replace_children, if_true, hg, reversedIter, hdl]
  · simp [ht]
  · simp [hn]
  · intro r s3 hrun
    obtain ⟨cs', hnc, _⟩ := insert_loop_traceOK R parent blocks ip s2 r s3 hrun
    exact ⟨cs', hnc.1⟩

/-- C4 (amended) witness: concrete two-descriptor instance — one descriptor
with string uuid "c1", one whose uuid is a number (skipped). -/
theorem claim_C4_amended_witness :
    ∃ s2, replace_children
        ⟨.ok (Json.arr [Json.obj [("uuid", Json.str "c1")],
                        Json.obj [("uuid", Json.num 3)]]),
         fun _ => .ok Json.null, fun _ => .ok Json.null⟩
        "P" [] false true St.init =
        insert_loop
          ⟨.ok (Json.arr [Json.obj [("uuid", Json.str "c1")],
                          Json.obj [("uuid", Json.num 3)]]),
           fun _ => .ok Json.null, fun _ => .ok Json.null⟩ "P" [] false s2 ∧
      s2.trace = St.init.trace ++ Call.fetch "P" false ::
        deleteCallsOf [Json.obj [("uuid", Json.str "c1")],
                       Json.obj [("uuid", Json.num 3)]].reverse ∧
      s2.nDel = St.init.nDel +
        (deleteCallsOf [Json.obj [("uuid", Json.str "c1")],
                        Json.obj [("uuid", Json.num 3)]].reverse).length ∧
      s2.nIns = St.init.nIns ∧
      ∀ r s3, insert_loop
          ⟨.ok (Json.arr [Json.obj [("uuid", Json.str "c1")],
                          Json.obj [("uuid", Json.num 3)]]),
           fun _ => .ok Json.null, fun _ => .ok Json.null⟩ "P" [] false s2 = (r, s3) →
        ∃ cs', s3.trace = s2.trace ++ cs' := by
  refine claim_C4_amended _ "P" [] false St.init _ rfl ?_ (fun n => ⟨Json.null, rfl⟩)
  intro c hc
  rcases List.mem_cons.mp hc with rfl | hc
  · exact ⟨_, rfl⟩
  · rcases List.mem_cons.mp hc with rfl | hc
    · exact ⟨_, rfl⟩
    · cases hc

/-- C5: a block spec whose `content` field is missing makes the tree inserter
raise the invalid-spec error (`ValueError`) with the state unchanged — zero
remote calls for that node and its subtree — and the error propagates through
the insertion loop, aborting the remaining specs while the earlier,
already-inserted sibling specs' effects (state `s1`) stand. -/
theorem claim_C5_invalid_spec (R : Remote) (parent : String) (ip : Bool)
    (fs : List (String × Json)) (bs1 bs2 : List Json) (s s1 : St)
    (ids : List String)
    (hc : lookupF "content" fs = none)
    (hpre : insert_loop R parent bs1 ip s = (.ok ids, s1)) :
    insert_block_tree R parent (Json.obj fs) ip s1 =
      (.error Err.invalidSpec, s1) ∧
    insert_loop R parent (bs1 ++ Json.obj fs :: bs2) ip s =
      (.error Err.invalidSpec, s1) := by
  have hibt : insert_block_tree R parent (Json.obj fs) ip s1 =
      (.error Err.invalidSpec, s1) := by
    rw [insert_block_tree_unfold]
    simp [ibtBody, memberCheck, hc]
  refine ⟨hibt, ?_⟩
  rw [insert_loop_append, hpre]
  dsimp only
  simp only [insert_loop, hibt]

/-- C5 witness: one valid sibling inserted first, then a spec missing
`content`, then a further (never-processed) spec. -/
theorem claim_C5_invalid_spec_witness :
    insert_block_tree remoteOk "P" (Json.obj [("note", Json.null)]) true
        { nDel := 0, nIns := 1,
          trace := [Call.insert "P" (Json.str "a") true false Json.null],
          warns := [] } =
      (.error Err.invalidSpec,
       { nDel := 0, nIns := 1,
         trace := [Call.insert "P" (Json.str "a") true false Json.null],
         warns := [] }) ∧
    insert_loop remoteOk "P"
        ([Json.obj [("content", Json.str "a")]] ++
          Json.obj [("note", Json.null)] :: [Json.obj [("content", Json.str "b")]])
        true St.init =
      (.error Err.invalidSpec,
       { nDel := 0, nIns := 1,
         trace := [Call.insert "P" (Json.str "a") true false Json.null],
         warns := [] }) :=
  claim_C5_invalid_spec remoteOk "P" true [("note", Json.null)]
    [Json.obj [("content", Json.str "a")]] [Json.obj [("content", Json.str "b")]]
    St.init _ ["u"] rfl rfl

/-- C6: when the insert call for a spec succeeds but its response yields no
extractable identifier, the tree inserter returns None without raising and
without recursing into the children — exactly one remote call (its own
insert) is issued and a warning is logged — and the insertion loop proceeds
with the remaining sibling specs as if from the post-insert state, the node
contributing no entry to the collected identifiers. -/
theorem claim_C6_extraction_failure (R : Remote) (parent : String) (ip : Bool)
    (fs : List (String × Json)) (cv : Json) (j : Json) (s : St) (bs : List Json)
    (hc : lookupF "content" fs = some cv)
    (hj : R.insertResps s.nIns = .ok j)
    (hex : extract_block_uuid j = none) :
    insert_block_tree R parent (Json.obj fs) ip s =
      (.ok none,
       { s with nIns := s.nIns + 1,
                trace := s.trace ++ [Call.insert parent cv ip false
                  ((lookupF "custom_uuid" fs).getD Json.null)],
                warns := s.warns ++ [Warn.noUuid parent] }) ∧
    insert_loop R parent (Json.obj fs :: bs) ip s =
      insert_loop R parent bs ip
        { s with nIns := s.nIns + 1,
                 trace := s.trace ++ [Call.insert parent cv ip false
                   ((lookupF "custom_uuid" fs).getD Json.null)],
                 warns := s.warns ++ [Warn.noUuid parent] } := by
  have hibt : insert_block_tree R parent (Json.obj fs) ip s =
      (.ok none,
       { s with nIns := s.nIns + 1,
                trace := s.trace ++ [Call.insert parent cv ip false
                  ((lookupF "custom_uuid" fs).getD Json.null)],
                warns := s.warns ++ [Warn.noUuid parent] }) := by
    rw [insert_block_tree_unfold]
    simp only [ibtBody, memberCheck, hc, Option.isSome_some, getItem, dictGet,
      insert_block, hj, hex]
  refine ⟨hibt, ?_⟩
  simp only [insert_loop, hibt]
  rcases hrest : insert_loop R parent bs ip
      { s with nIns := s.nIns + 1,
               trace := s.trace ++ [Call.insert parent cv ip false
                 ((lookupF "custom_uuid" fs).getD Json.null)],
               warns := s.warns ++ [Warn.noUuid parent] } with ⟨rr, sr⟩
  cases rr <;> rfl

/-- C6 witness: a remote answering inserts with an identifier-free object;
the failed root is followed by a sibling that still gets processed. -/
theorem claim_C6_extraction_failure_witness :
    insert_block_tree remoteNoId "P" (Json.obj [("content", Json.str "a")]) true
        St.init =
      (.ok none,
       { nDel := 0, nIns := 1,
         trace := [Call.insert "P" (Json.str "a") true false Json.null],
         warns := [Warn.noUuid "P"] }) ∧
    insert_loop remoteNoId "P"
        (Json.obj [("content", Json.str "a")] :: [Json.obj [("content", Json.str "b")]])
        true St.init =
      insert_loop remoteNoId "P" [Json.obj [("content", Json.str "b")]] true
        { nDel := 0, nIns := 1,
          trace := [Call.insert "P" (Json.str "a") true false Json.null],
          warns := [Warn.noUuid "P"] } :=
  claim_C6_extraction_failure remoteNoId "P" true [("content", Json.str "a")]
    (Json.str "a") (Json.obj [("status", Json.str "ok")]) St.init
    [Json.obj [("content", Json.str "b")]] rfl rfl rfl

/-- C7: whenever `replace_children` ends with a transport/HTTP error `e`, that
error is exactly the response error of the last remote call issued, every
remote call issued before it had succeeded, and the trace ends at the failing
call — the calls not yet issued at that point are never issued and no
retry/rollback call follows. -/
theorem claim_C7_error_propagation {R : Remote} {parent : String}
    {blocks : List Json} {ip de : Bool} {s : St} {e : RErr} {s1 : St}
    (h : replace_children R parent blocks ip de s = (.error (Err.rerr e), s1)) :
    ∃ cs c, s1.trace = s.trace ++ cs ++ [c] ∧
      AllOk (respsAlong R s.nDel s.nIns cs) ∧
      respsAlong R s.nDel s.nIns (cs ++ [c]) =
        respsAlong R s.nDel s.nIns cs ++ [.error e] := by
  obtain ⟨cs', hnc, hrest⟩ := replace_children_traceOK h
  obtain ⟨cs0, c, hcs, hok, hlast⟩ := hrest
  refine ⟨cs0, c, ?_, hok, ?_⟩
  · rw [hnc.1, hcs, List.append_assoc]
  · rw [← hcs]
    exact hlast

/-- C7 witness: concrete run whose first delete call raises a RemoteError;
the theorem's conclusion holds at that run. -/
theorem claim_C7_error_propagation_witness :
    ∃ cs c, ({ nDel := 1, nIns := 0,
               trace := [Call.fetch "P" false, Call.delete "c1"],
               warns := [] } : St).trace = St.init.trace ++ cs ++ [c] ∧
      AllOk (respsAlong remoteC7 St.init.nDel St.init.nIns cs) ∧
      respsAlong remoteC7 St.init.nDel St.init.nIns (cs ++ [c]) =
        respsAlong remoteC7 St.init.nDel St.init.nIns cs ++
          [.error (RErr.remote "boom")] :=
  claim_C7_error_propagation
    (s := St.init)
    (rfl : replace_children remoteC7 "P" [] false true St.init =
      (.error (Err.rerr (RErr.remote "boom")),
       { nDel := 1, nIns := 0,
         trace := [Call.fetch "P" false, Call.delete "c1"], warns := [] }))

/-- C8: children-tree fetch normalization — remote results `null`, `{}`,
`{"children": null}`, `[]`, and `{"children": [x, y]}` normalize to `[]`,
`[]`, `[]`, `[]`, and `[x, y]` respectively, without a warning; any other
truthy non-object, non-array result normalizes to `[]` with one
warning-level diagnostic and without raising. -/
theorem claim_C8_children_normalization (R : Remote) (parent : String)
    (ip : Bool) (s : St) (tree : Json) (hf : R.fetchResp = .ok tree) :
    (tree = Json.null → get_children_tree R parent ip s =
      (.ok (Json.arr []), { s with trace := s.trace ++ [Call.fetch parent ip] })) ∧
    (tree = Json.obj [] → get_children_tree R parent ip s =
      (.ok (Json.arr []), { s with trace := s.trace ++ [Call.fetch parent ip] })) ∧
    (tree = Json.obj [("children", Json.null)] → get_children_tree R parent ip s =
      (.ok (Json.arr []), { s with trace := s.trace ++ [Call.fetch parent ip] })) ∧
    (tree = Json.arr [] → get_children_tree R parent ip s =
      (.ok (Json.arr []), { s with trace := s.trace ++ [Call.fetch parent ip] })) ∧
    (∀ x y, tree = Json.obj [("children", Json.arr [x, y])] →
      get_children_tree R parent ip s =
        (.ok (Json.arr [x, y]),
         { s with trace := s.trace ++ [Call.fetch parent ip] })) ∧
    (tree.truthy = true → (∀ gs, tree ≠ Json.obj gs) → (∀ xs, tree ≠ Json.arr xs) →
      get_children_tree R parent ip s =
        (.ok (Json.arr []),
         { s with trace := s.trace ++ [Call.fetch parent ip],
                  warns := s.warns ++ [Warn.unexpectedPayload parent] })) := by
  refine ⟨?_, ?_, ?_, ?_, ?_, ?_⟩
  · intro h
    subst h
    simp [get_children_tree, hf, Json.truthy]
  · intro h
    subst h
    simp [get_children_tree, hf, Json.truthy]
  · intro h
    subst h
    simp [get_children_tree, hf, Json.truthy, lookupF]
  · intro h
    subst h
    simp [get_children_tree, hf, Json.truthy]
  · intro x y h
    subst h
    simp [get_children_tree, hf, Json.truthy, lookupF]
  · intro ht hobj harr
    cases tree with
    | null => simp [Json.truthy] at ht
    | bool b =>
      simp only [Json.truthy] at ht
      subst ht
      simp [get_children_tree, hf, Json.truthy]
    | num n =>
      simp only [get_children_tree, hf]
      rw [if_neg (by simp [Json.truthy] at ht ⊢; exact ht)]
    | str st =>
      simp only [get_children_tree, hf]
      rw [if_neg (by simp [Json.truthy] at ht ⊢; exact ht)]
    | obj gs => exact absurd rfl (hobj gs)
    | arr xs => exact absurd rfl (harr xs)

/-- C8 witness: the quantified other-shape branch at the concrete unexpected
payload `7`. -/
theorem claim_C8_children_normalization_witness :
    get_children_tree
        ⟨.ok (Json.num 7), fun _ => .ok Json.null, fun _ => .ok Json.null⟩
        "p" true St.init =
      (.ok (Json.arr []),
       { St.init with trace := St.init.trace ++ [Call.fetch "p" true],
                      warns := St.init.warns ++ [Warn.unexpectedPayload "p"] }) :=
  (claim_C8_children_normalization
      ⟨.ok (Json.num 7), fun _ => .ok Json.null, fun _ => .ok Json.null⟩
      "p" true St.init (Json.num 7) rfl).2.2.2.2.2
    (by decide) (fun gs h => Json.noConfusion h) (fun xs h => Json.noConfusion h)

/-- C9: a block spec whose `children` field is present but falsy behaves
exactly as if the field were absent — the run is literally equal to the run
on the spec with the `children` binding removed — and in particular the block
itself is still inserted, no child insert call is issued, and the extracted
identifier is still returned. -/
theorem claim_C9_falsy_children (R : Remote) (parent : String) (ip : Bool)
    (fs : List (String × Json)) (cv v : Json) (s : St)
    (hc : lookupF "content" fs = some cv)
    (hch : lookupF "children" fs = some v) (hv : v.truthy = false) :
    insert_block_tree R parent (Json.obj fs) ip s =
      insert_block_tree R parent (Json.obj (removeKey "children" fs)) ip s ∧
    (∀ j u, R.insertResps s.nIns = .ok j → extract_block_uuid j = some u →
      insert_block_tree R parent (Json.obj fs) ip s =
        (.ok (some u),
         { s with nIns := s.nIns + 1,
                  trace := s.trace ++ [Call.insert parent cv ip false
                    ((lookupF "custom_uuid" fs).getD Json.null)] })) := by
  have hcontent := @lookupF_removeKey_ne "children" "content" (by decide) fs
  have hcustom := @lookupF_removeKey_ne "children" "custom_uuid" (by decide) fs
  have hchr := lookupF_removeKey_self "children" fs
  have hiter : iterChildren v = .ok [] := by
    unfold iterChildren
    rw [if_pos hv]
  constructor
  · rw [insert_block_tree_unfold, insert_block_tree_unfold]
    simp only [ibtBody, memberCheck, getItem, dictGet, hcontent, hcustom, hchr,
      hc, hch, Option.isSome_some, insert_block, Option.getD_none,
      Option.getD_some, hiter, iterChildren_arr, seqKids]
  · intro j u hj hu
    rw [insert_block_tree_unfold]
    simp only [ibtBody, memberCheck, hc, Option.isSome_some, getItem, dictGet,
      insert_block, hj, hu, hch, Option.getD_some, hiter, seqKids]

/-- C9 witness: concrete spec with `children: null`. -/
theorem claim_C9_falsy_children_witness :
    insert_block_tree remoteOk "P"
        (Json.obj [("content", Json.str "a"), ("children", Json.null)]) true
        St.init =
      insert_block_tree remoteOk "P"
        (Json.obj (removeKey "children"
          [("content", Json.str "a"), ("children", Json.null)])) true St.init ∧
    (∀ j u, remoteOk.insertResps St.init.nIns = .ok j →
      extract_block_uuid j = some u →
      insert_block_tree remoteOk "P"
          (Json.obj [("content", Json.str "a"), ("children", Json.null)]) true
          St.init =
        (.ok (some u),
         { St.init with nIns := St.init.nIns + 1,
                        trace := St.init.trace ++ [Call.insert "P" (Json.str "a")
                          true false ((lookupF "custom_uuid"
                            [("content", Json.str "a"),
                             ("children", Json.null)]).getD Json.null)] })) :=
  claim_C9_falsy_children remoteOk "P" true
    [("content", Json.str "a"), ("children", Json.null)]
    (Json.str "a") Json.null St.init rfl rfl rfl

/-- C10: if the insert call for a spec returns the bare empty string as its
entire RPC result, identifier extraction returns "" (not None), the tree
inserter therefore does recurse into the spec's children using "" as the
parent reference and returns "", yet the insertion loop of `replace_children`
omits the empty-string identifier from the collected list — the result can be
shorter than the number of fully submitted root specs. -/
theorem claim_C10_empty_identifier (R : Remote) (parent : String) (ip : Bool)
    (fs : List (String × Json)) (cv : Json) (cs : List Json) (s s2 s3 : St)
    (bs : List Json) (ids : List String)
    (hc : lookupF "content" fs = some cv)
    (hch : lookupF "children" fs = some (Json.arr cs))
    (hins : R.insertResps s.nIns = .ok (Json.str ""))
    (hseq : seqKids (fun c s' => insert_block_tree R "" c false s') cs
        { s with nIns := s.nIns + 1,
                 trace := s.trace ++ [Call.insert parent cv ip false
                   ((lookupF "custom_uuid" fs).getD Json.null)] } = (.ok (), s2))
    (hrest : insert_loop R parent bs ip s2 = (.ok ids, s3)) :
    extract_block_uuid (Json.str "") = some "" ∧
    insert_block_tree R parent (Json.obj fs) ip s = (.ok (some ""), s2) ∧
    insert_loop R parent (Json.obj fs :: bs) ip s = (.ok ids, s3) := by
  have h2 : insert_block_tree R parent (Json.obj fs) ip s = (.ok (some ""), s2) := by
    rw [insert_block_tree_unfold]
    simp only [ibtBody, memberCheck, hc, Option.isSome_some, getItem, dictGet,
      insert_block, hins, extract_block_uuid, hch, Option.getD_some,
      iterChildren_arr, hseq]
  refine ⟨rfl, h2, ?_⟩
  simp only [insert_loop, h2, hrest]
  simp

/-- C10 witness: the concrete scenario — one root whose insert answers "",
with one child; the child is submitted under parent "" and the collected list
is empty (shorter than the one root). -/
theorem claim_C10_empty_identifier_witness :
    extract_block_uuid (Json.str "") = some "" ∧
    insert_block_tree remoteC10 "P"
        (Json.obj [("content", Json.str "A"),
                   ("children", Json.arr [Json.obj [("content", Json.str "B")]])])
        true St.init =
      (.ok (some ""),
       { nDel := 0, nIns := 2,
         trace := [Call.insert "P" (Json.str "A") true false Json.null,
                   Call.insert "" (Json.str "B") false false Json.null],
         warns := [] }) ∧
    insert_loop remoteC10 "P"
        (Json.obj [("content", Json.str "A"),
                   ("children", Json.arr [Json.obj [("content", Json.str "B")]])] :: [])
        true St.init =
      (.ok [],
       { nDel := 0, nIns := 2,
         trace := [Call.insert "P" (Json.str "A") true false Json.null,
                   Call.insert "" (Json.str "B") false false Json.null],
         warns := [] }) :=
  claim_C10_empty_identifier remoteC10 "P" true
    [("content", Json.str "A"),
     ("children", Json.arr [Json.obj [("content", Json.str "B")]])]
    (Json.str "A") [Json.obj [("content", Json.str "B")]] St.init
    { nDel := 0, nIns := 2,
      trace := [Call.insert "P" (Json.str "A") true false Json.null,
                Call.insert "" (Json.str "B") false false Json.null],
      warns := [] }
    { nDel := 0, nIns := 2,
      trace := [Call.insert "P" (Json.str "A") true false Json.null,
                Call.insert "" (Json.str "B") false false Json.null],
      warns := [] }
    [] [] rfl rfl rfl rfl rfl
